import Mathlib

set_option maxRecDepth 8000

/-!
Verification of the resume-screening core (skill extraction, scoring, ranking)
against its natural-language specification.

The Python sources are shallowly embedded:
* Python floats are modelled as exact rationals (`ℚ`) for the arithmetic of
  `scoring.py`, and as real numbers (`ℝ`) where square roots occur
  (`calculate_semantic_similarity`, `embeddings.py`).
* Python strings are modelled as `String`/`List Char`; `str.lower` is
  `Char.toLower` charwise, `str.strip` drops whitespace at both ends.
* Python sets are modelled as deduplicated lists (for the executable
  operational side) and related to `Finset`s in the theorems.
* Python's stable `sorted` is modelled by `List.insertionSort`, which is a
  stable sort and therefore extensionally identical to Timsort on every input.
-/

namespace Screener

/-- Charwise lower-casing, the model of Python's `str.lower()` (ASCII range). -/
def lowerString (s : String) : String := ⟨s.data.map Char.toLower⟩

/-- Python's lexicographic string comparison `a <= b`, by code points. -/
def strLeb : List Char → List Char → Bool
  | [], _ => true
  | _ :: _, [] => false
  | a :: as, b :: bs =>
    if a.toNat < b.toNat then true
    else if b.toNat < a.toNat then false
    else strLeb as bs

/-- The order in which Python's `sorted` arranges strings. -/
def pyLE (a b : String) : Prop := strLeb a.data b.data = true

instance : DecidableRel pyLE := fun a b =>
  inferInstanceAs (Decidable (strLeb a.data b.data = true))

theorem strLeb_total : ∀ a b, strLeb a b = true ∨ strLeb b a = true
  | [], _ => Or.inl rfl
  | _ :: _, [] => Or.inr rfl
  | a :: as, b :: bs => by
    simp only [strLeb]
    rcases Nat.lt_trichotomy a.toNat b.toNat with h | h | h
    · exact Or.inl (by simp [h])
    · have h1 : ¬ a.toNat < b.toNat := by omega
      have h2 : ¬ b.toNat < a.toNat := by omega
      simpa [h1, h2] using strLeb_total as bs
    · exact Or.inr (by simp [h])

theorem strLeb_trans : ∀ a b c, strLeb a b = true → strLeb b c = true →
    strLeb a c = true
  | [], _, _ => fun _ _ => rfl
  | _ :: _, [], _ => fun h _ => by simp [strLeb] at h
  | _ :: _, _ :: _, [] => fun _ h => by simp [strLeb] at h
  | a :: as, b :: bs, c :: cs => fun h1 h2 => by
    simp only [strLeb] at h1 h2 ⊢
    rcases Nat.lt_trichotomy a.toNat c.toNat with h | h | h
    · simp [h]
    · have ha : ¬ a.toNat < c.toNat := by omega
      have hb : ¬ c.toNat < a.toNat := by omega
      simp only [ha, hb, if_neg, if_false, ite_false]
      split at h1
      · split at h2
        · omega
        · split at h2
          · exact absurd h2 (by simp)
          · omega
      · split at h1
        · exact absurd h1 (by simp)
        · split at h2
          · omega
          · split at h2
            · exact absurd h2 (by simp)
            · have : a.toNat = b.toNat := by omega
              exact strLeb_trans as bs cs h1 h2
    · exfalso
      split at h1
      · split at h2
        · omega
        · split at h2
          · exact absurd h2 (by simp)
          · omega
      · split at h1
        · exact absurd h1 (by simp)
        · split at h2
          · omega
          · split at h2
            · exact absurd h2 (by simp)
            · omega

theorem strLeb_antisymm : ∀ a b, strLeb a b = true → strLeb b a = true → a = b
  | [], [] => fun _ _ => rfl
  | [], _ :: _ => fun _ h => by simp [strLeb] at h
  | _ :: _, [] => fun h _ => by simp [strLeb] at h
  | a :: as, b :: bs => fun h1 h2 => by
    simp only [strLeb] at h1 h2
    rcases Nat.lt_trichotomy a.toNat b.toNat with h | h | h
    · rw [if_neg (by omega), if_pos h] at h2
      exact absurd h2 (by simp)
    · rw [if_neg (by omega), if_neg (by omega)] at h1 h2
      have hc : a = b := Char.eq_of_val_eq (UInt32.toNat.inj h)
      rw [hc, strLeb_antisymm as bs h1 h2]
    · rw [if_neg (by omega), if_pos h] at h1
      exact absurd h1 (by simp)

instance : IsTotal String pyLE := ⟨fun a b => strLeb_total a.data b.data⟩

instance : IsTrans String pyLE := ⟨fun a b c => strLeb_trans a.data b.data c.data⟩

instance : IsAntisymm String pyLE :=
  ⟨fun a b h1 h2 => by
    cases a; cases b
    exact congrArg String.mk (strLeb_antisymm _ _ h1 h2)⟩

/-- The lower-cased, deduplicated version of a skill list: the model of
`set(skill.lower() for skill in skills)` as an executable list. -/
def lowSet (l : List String) : List String := (l.map lowerString).dedup

/-- The same Python set expression viewed as a `Finset`, used in specifications. -/
def lowFinset (l : List String) : Finset String := (l.map lowerString).toFinset

/-- Embedding of `CandidateScorer.calculate_skill_match_score` (src/scoring.py,
lines 46-77): empty job list returns `(1.0, [])`; otherwise
`0.7·coverage + 0.3·jaccard` with the alphabetically sorted matched list. -/
def calculate_skill_match_score (resume_skills job_skills : List String) :
    ℚ × List String :=
  if job_skills = [] then (1, [])
  else
    let resume_set := lowSet resume_skills
    let job_set := lowSet job_skills
    let matched := resume_set ∩ job_set
    let uni := resume_set ∪ job_set
    let jaccard_score : ℚ :=
      if uni = [] then 0 else (matched.length : ℚ) / (uni.length : ℚ)
    let coverage_score : ℚ :=
      if job_set = [] then 0 else (matched.length : ℚ) / (job_set.length : ℚ)
    (7/10 * coverage_score + 3/10 * jaccard_score,
      List.insertionSort pyLE matched)

/-- Embedding of `SkillExtractor.calculate_skill_match` (src/skill_extraction.py,
lines 217-241): empty job list returns `(0.0, [])`; otherwise the coverage
fraction with the sorted matched list. -/
def calculate_skill_match (resume_skills job_skills : List String) :
    ℚ × List String :=
  if job_skills = [] then (0, [])
  else
    let resume_set := lowSet resume_skills
    let job_set := lowSet job_skills
    let matched := resume_set ∩ job_set
    let match_score : ℚ :=
      if job_set = [] then 0 else (matched.length : ℚ) / (job_set.length : ℚ)
    (match_score, List.insertionSort pyLE matched)

/-- Embedding of `CandidateScorer.calculate_experience_score` (src/scoring.py,
lines 106-132).  `required_years = none` models Python's `None` default; the
`max_years` parameter defaults to `20.0` at every call site in the source. -/
def calculate_experience_score (candidate_years : ℚ)
    (required_years : Option ℚ) (max_years : ℚ) : ℚ :=
  match required_years with
  | none => min (candidate_years / max_years) 1
  | some r =>
    if r ≤ candidate_years then
      let excess_years := candidate_years - r
      let bonus := min (excess_years / 5) (2/10)
      min (1 + bonus) 1
    else
      candidate_years / r

/-- One entry of the scoring-result dictionaries consumed by
`rank_candidates` and `filter_by_threshold` (candidate id, the
`overall_score` key, and the `rank` key, `0` meaning unset). -/
structure ScoredCandidate where
  cid : ℕ
  overall_score : ℚ
  rank : ℕ
deriving DecidableEq

/-- The order used by `sorted(..., key=lambda x: x['overall_score'],
reverse=True)`: `a` comes no later than `b` when `b`'s score is at most
`a`'s. -/
def scoreGE (a b : ScoredCandidate) : Prop :=
  b.overall_score ≤ a.overall_score

instance : DecidableRel scoreGE := fun a b =>
  inferInstanceAs (Decidable (b.overall_score ≤ a.overall_score))

instance : IsTotal ScoredCandidate scoreGE :=
  ⟨fun a b => le_total b.overall_score a.overall_score⟩

instance : IsTrans ScoredCandidate scoreGE :=
  ⟨fun _ _ _ h1 h2 => le_trans h2 h1⟩

/-- Embedding of `CandidateScorer.rank_candidates` (src/scoring.py, lines
205-226): a stable descending sort by `overall_score` (Python's `sorted` is
stable; any stable sort computes the same list), then `rank := position + 1`
is written into each result. -/
def rank_candidates (scoring_results : List ScoredCandidate) :
    List ScoredCandidate :=
  ((List.insertionSort scoreGE scoring_results).enum).map
    fun p => { p.2 with rank := p.1 + 1 }

/-- Forgets the mutable `rank` field, for comparing ranking input and output
element-wise. -/
def eraseRank (c : ScoredCandidate) : ScoredCandidate := { c with rank := 0 }

/-- `config.SIMILARITY_THRESHOLD` with its default value `0.5` (config.py,
line 22). -/
def SIMILARITY_THRESHOLD : ℚ := mkRat 1 2

/-- Embedding of `CandidateScorer.filter_by_threshold` (src/scoring.py, lines
228-245).  `threshold = threshold or config.SIMILARITY_THRESHOLD` falls back
to the config default when the argument is `None` *or* `0.0`, since both are
falsy in Python. -/
def filter_by_threshold (scored_candidates : List ScoredCandidate)
    (threshold : Option ℚ) : List ScoredCandidate :=
  let t : ℚ :=
    match threshold with
    | none => SIMILARITY_THRESHOLD
    | some v => if v = 0 then SIMILARITY_THRESHOLD else v
  scored_candidates.filter (fun c => decide (t ≤ c.overall_score))

/-- `np.dot` on equal-length one-dimensional arrays. -/
def dotProduct (a b : List ℝ) : ℝ := (List.zipWith (· * ·) a b).sum

/-- `np.linalg.norm`, the Euclidean magnitude of a vector. -/
noncomputable def norm2 (a : List ℝ) : ℝ := Real.sqrt (dotProduct a a)

open Classical in
/-- Embedding of `CandidateScorer.calculate_semantic_similarity`
(src/scoring.py, lines 79-104): cosine similarity rescaled to `[0, 1]`, with
`0.0` returned when either vector has zero magnitude. -/
noncomputable def calculate_semantic_similarity (a b : List ℝ) : ℝ :=
  if norm2 a = 0 ∨ norm2 b = 0 then 0
  else (dotProduct a b / (norm2 a * norm2 b) + 1) / 2

/-- Plain cosine similarity, as in the `'cosine'` branch of
`EmbeddingGenerator.compute_similarity`. -/
noncomputable def cosineSimilarity (a b : List ℝ) : ℝ :=
  dotProduct a b / (norm2 a * norm2 b)

open Classical in
/-- Embedding of `EmbeddingGenerator.compute_similarity` (src/embeddings.py,
lines 88-124).  A raised exception is modelled as `Except.error` carrying the
message; the numpy shape errors on mismatched one-dimensional operands are
modelled by the length checks. -/
noncomputable def compute_similarity (a b : List ℝ) (method : String) :
    Except String ℝ :=
  if method = "cosine" then
    if a.length = b.length then
      if norm2 a = 0 ∨ norm2 b = 0 then Except.ok 0
      else Except.ok (cosineSimilarity a b)
    else Except.error "shapes not aligned"
  else if method = "dot" then
    if a.length = b.length then Except.ok (dotProduct a b)
    else Except.error "shapes not aligned"
  else if method = "euclidean" then
    if a.length = b.length then
      Except.ok (1 / (1 + norm2 (List.zipWith (· - ·) a b)))
    else Except.error "operands could not be broadcast together"
  else Except.error ("Unknown similarity method: " ++ method)

/-- Python `str.lower()`, charwise, on a character list (ASCII range). -/
def lowerChars (l : List Char) : List Char := l.map Char.toLower

/-- Python `str.strip()`: drop whitespace from both ends. -/
def stripChars (l : List Char) : List Char :=
  (((l.dropWhile Char.isWhitespace).reverse).dropWhile Char.isWhitespace).reverse

/-- The character class kept by `re.sub(r'[^\w\s\+\#]', '', skill)` in
`TextPreprocessor.normalize_skill`: word characters, whitespace, `+`, `#`
(ASCII range). -/
def isSkillChar (c : Char) : Bool :=
  c.isAlphanum || c == '_' || c.isWhitespace || c == '+' || c == '#'

/-- The `skill_mappings` alias dictionary of `TextPreprocessor.normalize_skill`
(src/preprocessing.py, lines 309-328). -/
def skill_mappings : List (List Char × List Char) :=
  [("javascript".data, "javascript".data),
   ("js".data, "javascript".data),
   ("typescript".data, "typescript".data),
   ("ts".data, "typescript".data),
   ("c++".data, "c++".data),
   ("cpp".data, "c++".data),
   ("c#".data, "c#".data),
   ("csharp".data, "c#".data),
   ("python".data, "python".data),
   ("py".data, "python".data),
   ("node".data, "nodejs".data),
   ("node.js".data, "nodejs".data),
   ("react.js".data, "react".data),
   ("reactjs".data, "react".data),
   ("vue.js".data, "vue".data),
   ("vuejs".data, "vue".data),
   ("angular.js".data, "angular".data),
   ("angularjs".data, "angular".data)]

/-- `skill_mappings.get(skill, skill)`. -/
def aliasGet (s : List Char) : List Char := (skill_mappings.lookup s).getD s

/-- The cleaned skill before alias resolution: `skill.lower().strip()`
followed by `re.sub(r'[^\w\s\+\#]', '', skill)`. -/
def cleanSkill (skill : List Char) : List Char :=
  (stripChars (lowerChars skill)).filter isSkillChar

/-- Embedding of `TextPreprocessor.normalize_skill` (src/preprocessing.py,
lines 292-330): lower-case, strip, remove characters outside the kept class,
then resolve aliases, passing unresolved inputs through unchanged. -/
def normalize_skill (skill : List Char) : List Char :=
  aliasGet (cleanSkill skill)

/-- `config.SKILL_KEYWORDS` (config.py, lines 28-56). -/
def SKILL_KEYWORDS : List String :=
  ["python", "java", "javascript", "typescript", "c++", "c#", "ruby", "go",
   "rust", "php", "swift", "kotlin", "scala", "r", "matlab", "sql", "html",
   "css",
   "react", "angular", "vue", "django", "flask", "spring", "nodejs",
   "express", "tensorflow", "pytorch", "keras", "pandas", "numpy",
   "scikit-learn",
   "mysql", "postgresql", "mongodb", "redis", "cassandra", "oracle",
   "sqlite", "dynamodb", "elasticsearch",
   "aws", "azure", "gcp", "docker", "kubernetes", "jenkins", "ci/cd",
   "terraform", "ansible", "git", "github", "gitlab",
   "machine learning", "deep learning", "nlp", "computer vision",
   "data analysis", "data science", "statistics", "data visualization",
   "tableau", "power bi",
   "leadership", "communication", "teamwork", "problem solving",
   "critical thinking", "project management", "agile", "scrum",
   "collaboration",
   "api", "rest", "graphql", "microservices", "testing", "debugging",
   "linux", "unix", "shell scripting", "networking", "security"]

/-- The normalized vocabulary built by `SkillExtractor.__init__`
(src/skill_extraction.py, lines 29-35): default keywords plus custom entries,
each sent through `skill.lower().strip()`, collected as a set. -/
def buildSkillKeywords (custom : List String) : Finset (List Char) :=
  ((SKILL_KEYWORDS ++ custom).map (fun s => stripChars (lowerChars s.data))).toFinset

/-- Python's regex `\w` class (ASCII range): letters, digits, underscore. -/
def isWordChar (c : Char) : Bool := c.isAlphanum || c == '_'

/-- Whether position `j` of the text holds a word character (out of range
counts as non-word). -/
def wordAt (t : List Char) (j : ℕ) : Bool :=
  match t[j]? with
  | some c => isWordChar c
  | none => false

/-- Python's `\b` assertion at position `i` (`0 ≤ i ≤ |t|`): the two sides
disagree on word-character-ness, sides beyond the text being non-word. -/
def boundaryAt (t : List Char) (i : ℕ) : Bool :=
  (decide (i ≠ 0) && wordAt t (i - 1)) != wordAt t i

/-- The literal pattern `pat` occurs in `t` starting at position `i`. -/
def occursAt (t pat : List Char) (i : ℕ) : Bool :=
  decide ((t.drop i).take pat.length = pat)

/-- The regex `\b<pat>\b` (with `pat` literal, as produced by `re.escape`)
matches in `t` at position `i`. -/
def matchAt (t pat : List Char) (i : ℕ) : Bool :=
  occursAt t pat i && boundaryAt t i && boundaryAt t (i + pat.length)

/-- `re.search(r'\b' + re.escape(pat) + r'\b', t)` succeeds somewhere. -/
def keywordHit (t pat : List Char) : Bool :=
  (List.range (t.length + 1)).any (fun i => matchAt t pat i)

/-- Embedding of the per-skill test of `SkillExtractor._extract_by_keywords`
(src/skill_extraction.py, lines 97-116): the text is lower-cased and the
(already lower-case) vocabulary entry is searched with word boundaries. -/
def reportsSkill (text skill : List Char) : Bool :=
  keywordHit (lowerChars text) skill

end Screener

namespace Screener

/-- C3: for required years `r > 0` the experience sub-score is `y / r` below
the requirement and exactly `1.0` at or above it (the excess bonus is clamped
away); in particular `calculate_experience_score(5.0, 5.0) = 1.0` and
`calculate_experience_score(3.0, 5.0) = 0.6`. -/
theorem experience_score_spec :
    (∀ y r : ℚ, 0 < r → 0 ≤ y →
      (y < r → calculate_experience_score y (some r) 20 = y / r) ∧
      (r ≤ y → calculate_experience_score y (some r) 20 = 1)) ∧
    calculate_experience_score 5 (some 5) 20 = 1 ∧
    calculate_experience_score 3 (some 5) 20 = 3/5 := by
  refine ⟨fun y r hr hy => ⟨fun hlt => ?_, fun hge => ?_⟩, by norm_num [calculate_experience_score], by norm_num [calculate_experience_score]⟩
  · rw [calculate_experience_score, if_neg (by exact not_le.mpr hlt)]
  · rw [calculate_experience_score, if_pos hge]
    have hb : (0:ℚ) ≤ min ((y - r) / 5) (2/10) :=
      le_min (by linarith) (by norm_num)
    simp only [min_eq_right (by linarith : (1:ℚ) ≤ 1 + min ((y - r) / 5) (2/10))]

theorem lowSet_nodup (l : List String) : (lowSet l).Nodup :=
  List.nodup_dedup _

theorem lowSet_toFinset (l : List String) : (lowSet l).toFinset = lowFinset l := by
  ext a
  simp [lowSet, lowFinset]

theorem matched_nodup (C J : List String) : (lowSet C ∩ lowSet J).Nodup :=
  List.Nodup.inter (lowSet J) (lowSet_nodup C)

theorem uni_nodup (C J : List String) : (lowSet C ∪ lowSet J).Nodup :=
  List.Nodup.union (lowSet C) (lowSet_nodup J)

theorem matched_toFinset (C J : List String) :
    (lowSet C ∩ lowSet J).toFinset = lowFinset C ∩ lowFinset J := by
  rw [List.toFinset_inter, lowSet_toFinset, lowSet_toFinset]

theorem uni_toFinset (C J : List String) :
    (lowSet C ∪ lowSet J).toFinset = lowFinset C ∪ lowFinset J := by
  rw [List.toFinset_union, lowSet_toFinset, lowSet_toFinset]

theorem matched_length (C J : List String) :
    (lowSet C ∩ lowSet J).length = (lowFinset C ∩ lowFinset J).card := by
  rw [← matched_toFinset, List.toFinset_card_of_nodup (matched_nodup C J)]

theorem uni_length (C J : List String) :
    (lowSet C ∪ lowSet J).length = (lowFinset C ∪ lowFinset J).card := by
  rw [← uni_toFinset, List.toFinset_card_of_nodup (uni_nodup C J)]

theorem lowSet_length (J : List String) :
    (lowSet J).length = (lowFinset J).card := by
  rw [← lowSet_toFinset, List.toFinset_card_of_nodup (lowSet_nodup J)]

theorem lowSet_eq_nil_iff (J : List String) : lowSet J = [] ↔ J = [] := by
  simp [lowSet, List.dedup_eq_nil]

theorem mem_lowFinset_of_ne_nil {J : List String} (hJ : J ≠ []) :
    ∃ a, a ∈ lowFinset J := by
  obtain ⟨a, ha⟩ := List.exists_mem_of_ne_nil J hJ
  exact ⟨lowerString a, List.mem_toFinset.mpr (List.mem_map_of_mem _ ha)⟩

theorem uni_ne_nil (C : List String) {J : List String} (hJ : J ≠ []) :
    lowSet C ∪ lowSet J ≠ [] := by
  obtain ⟨a, ha⟩ := List.exists_mem_of_ne_nil J hJ
  have : lowerString a ∈ lowSet C ∪ lowSet J :=
    List.mem_union_right _ (by simp [lowSet, List.mem_dedup, List.mem_map_of_mem _ ha])
  exact List.ne_nil_of_mem this

theorem sort_matched (C J : List String) :
    List.insertionSort pyLE (lowSet C ∩ lowSet J) =
      (lowFinset C ∩ lowFinset J).sort pyLE := by
  refine List.eq_of_perm_of_sorted ?_ (List.sorted_insertionSort _ _)
    (Finset.sort_sorted _ _)
  refine (List.perm_ext_iff_of_nodup
    ((List.perm_insertionSort _ _).nodup_iff.mpr (matched_nodup C J))
    (Finset.sort_nodup _ _)).mpr ?_
  intro a
  rw [List.mem_insertionSort, Finset.mem_sort, ← matched_toFinset,
    List.mem_toFinset]

/-- The non-degenerate branch of `calculate_skill_match_score`, expressed with
`Finset` intersections and unions of the lower-cased skill sets. -/
theorem skill_match_score_eq (C J : List String) (hJ : J ≠ []) :
    calculate_skill_match_score C J =
      (7/10 * (((lowFinset C ∩ lowFinset J).card : ℚ) / ((lowFinset J).card : ℚ)) +
        3/10 * (((lowFinset C ∩ lowFinset J).card : ℚ) /
          ((lowFinset C ∪ lowFinset J).card : ℚ)),
        (lowFinset C ∩ lowFinset J).sort pyLE) := by
  have hjset : lowSet J ≠ [] := fun h => hJ ((lowSet_eq_nil_iff J).mp h)
  simp only [calculate_skill_match_score, if_neg hJ, if_neg hjset,
    if_neg (uni_ne_nil C hJ)]
  rw [matched_length, uni_length, lowSet_length, sort_matched]

/-- The non-degenerate branch of `SkillExtractor.calculate_skill_match`. -/
theorem skill_match_eq (C J : List String) (hJ : J ≠ []) :
    calculate_skill_match C J =
      ((((lowFinset C ∩ lowFinset J).card : ℚ) / ((lowFinset J).card : ℚ)),
        (lowFinset C ∩ lowFinset J).sort pyLE) := by
  have hjset : lowSet J ≠ [] := fun h => hJ ((lowSet_eq_nil_iff J).mp h)
  simp only [calculate_skill_match, if_neg hJ, if_neg hjset]
  rw [matched_length, lowSet_length, sort_matched]

theorem coverage_mem_unit (C : List String) {J : List String} (hJ : J ≠ []) :
    0 ≤ (((lowFinset C ∩ lowFinset J).card : ℚ) / ((lowFinset J).card : ℚ)) ∧
      (((lowFinset C ∩ lowFinset J).card : ℚ) / ((lowFinset J).card : ℚ)) ≤ 1 := by
  obtain ⟨a, ha⟩ := mem_lowFinset_of_ne_nil hJ
  have hpos : (0:ℚ) < ((lowFinset J).card : ℚ) := by
    exact_mod_cast Finset.card_pos.mpr ⟨a, ha⟩
  have hle : ((lowFinset C ∩ lowFinset J).card : ℚ) ≤ ((lowFinset J).card : ℚ) := by
    exact_mod_cast Finset.card_le_card Finset.inter_subset_right
  exact ⟨div_nonneg (by positivity) hpos.le, (div_le_one hpos).mpr hle⟩

theorem jaccard_mem_unit (C : List String) {J : List String} (hJ : J ≠ []) :
    0 ≤ (((lowFinset C ∩ lowFinset J).card : ℚ) /
        ((lowFinset C ∪ lowFinset J).card : ℚ)) ∧
      (((lowFinset C ∩ lowFinset J).card : ℚ) /
        ((lowFinset C ∪ lowFinset J).card : ℚ)) ≤ 1 := by
  obtain ⟨a, ha⟩ := mem_lowFinset_of_ne_nil hJ
  have hpos : (0:ℚ) < ((lowFinset C ∪ lowFinset J).card : ℚ) := by
    exact_mod_cast Finset.card_pos.mpr ⟨a, Finset.mem_union_right _ ha⟩
  have hle : ((lowFinset C ∩ lowFinset J).card : ℚ) ≤
      ((lowFinset C ∪ lowFinset J).card : ℚ) := by
    exact_mod_cast Finset.card_le_card
      (Finset.inter_subset_right.trans Finset.subset_union_right)
  exact ⟨div_nonneg (by positivity) hpos.le, (div_le_one hpos).mpr hle⟩

/-- C1: for a non-empty job list the skill-match operation returns
`0.7·(|C∩J|/|J|) + 0.3·(|C∩J|/|C∪J|)` together with the alphabetically sorted
matched list; on `C = [python, django, postgresql, docker]`,
`J = [python, django, aws]` it returns exactly the two matches
`[django, python]` with score `44/75`, which rounds to `0.5867` at four
decimal places. -/
theorem skill_match_score_spec :
    (∀ C J : List String, J ≠ [] →
      (calculate_skill_match_score C J).1 =
        7/10 * (((lowFinset C ∩ lowFinset J).card : ℚ) / ((lowFinset J).card : ℚ)) +
          3/10 * (((lowFinset C ∩ lowFinset J).card : ℚ) /
            ((lowFinset C ∪ lowFinset J).card : ℚ)) ∧
      (calculate_skill_match_score C J).2 =
        (lowFinset C ∩ lowFinset J).sort pyLE) ∧
    calculate_skill_match_score ["python", "django", "postgresql", "docker"]
        ["python", "django", "aws"] = (44/75, ["django", "python"]) ∧
    round ((calculate_skill_match_score ["python", "django", "postgresql", "docker"]
        ["python", "django", "aws"]).1 * 10000) = 5867 := by
  have hex : calculate_skill_match_score ["python", "django", "postgresql", "docker"]
      ["python", "django", "aws"] = (44/75, ["django", "python"]) := by
    have h3 : lowSet ["python", "django", "postgresql", "docker"] ∩
        lowSet ["python", "django", "aws"] = ["python", "django"] := by decide
    have h4 : lowSet ["python", "django", "postgresql", "docker"] ∪
        lowSet ["python", "django", "aws"] =
        ["postgresql", "docker", "python", "django", "aws"] := by decide
    have h5 : List.insertionSort pyLE ["python", "django"] = ["django", "python"] := by
      decide
    have h2 : lowSet ["python", "django", "aws"] = ["python", "django", "aws"] := by
      decide
    simp only [calculate_skill_match_score]
    rw [if_neg (by decide), h3, h4, h5, h2]
    rw [if_neg (by decide), if_neg (by decide)]
    norm_num
  refine ⟨fun C J hJ => ?_, hex, ?_⟩
  · rw [skill_match_score_eq C J hJ]
    exact ⟨rfl, rfl⟩
  · rw [hex]
    rw [round_eq]
    norm_num

/-- Witness for C1 at `C = [aws]`, `J = [python]`. -/
theorem skill_match_score_spec_witness :
    (["python"] : List String) ≠ [] ∧
    (calculate_skill_match_score ["aws"] ["python"]).1 =
      7/10 * (((lowFinset ["aws"] ∩ lowFinset ["python"]).card : ℚ) /
        ((lowFinset ["python"]).card : ℚ)) +
      3/10 * (((lowFinset ["aws"] ∩ lowFinset ["python"]).card : ℚ) /
        ((lowFinset ["aws"] ∪ lowFinset ["python"]).card : ℚ)) :=
  ⟨by decide, (skill_match_score_spec.1 ["aws"] ["python"] (by decide)).1⟩

/-- C2 counterexample: the `SkillExtractor.calculate_skill_match` implementation
returns score `0.0`, not `1.0`, on an empty job-skill list. -/
theorem empty_job_counterexample :
    (calculate_skill_match ["python"] []).1 = 0 ∧ (0:ℚ) ≠ 1 :=
  ⟨rfl, by norm_num⟩

/-- C2 (amended): both skill-match implementations stay within `[0, 1]`, and on
an empty job list `CandidateScorer.calculate_skill_match_score` returns
`(1.0, [])`, whereas `SkillExtractor.calculate_skill_match` returns `(0.0, [])`. -/
theorem skill_match_bounds_spec :
    (∀ C J : List String, 0 ≤ (calculate_skill_match_score C J).1 ∧
      (calculate_skill_match_score C J).1 ≤ 1) ∧
    (∀ C J : List String, 0 ≤ (calculate_skill_match C J).1 ∧
      (calculate_skill_match C J).1 ≤ 1) ∧
    (∀ C : List String, calculate_skill_match_score C [] = (1, [])) ∧
    (∀ C : List String, calculate_skill_match C [] = (0, [])) := by
  refine ⟨fun C J => ?_, fun C J => ?_, fun C => rfl, fun C => rfl⟩
  · by_cases hJ : J = []
    · subst hJ
      rw [calculate_skill_match_score]
      norm_num
    · obtain ⟨hc0, hc1⟩ := coverage_mem_unit C hJ
      obtain ⟨hj0, hj1⟩ := jaccard_mem_unit C hJ
      rw [skill_match_score_eq C J hJ]
      constructor
      · positivity
      · simp only
        linarith
  · by_cases hJ : J = []
    · subst hJ
      rw [calculate_skill_match]
      norm_num
    · obtain ⟨hc0, hc1⟩ := coverage_mem_unit C hJ
      rw [skill_match_eq C J hJ]
      exact ⟨hc0, hc1⟩

theorem rank_candidates_map_eraseRank (l : List ScoredCandidate) :
    (rank_candidates l).map eraseRank =
      (List.insertionSort scoreGE l).map eraseRank := by
  rw [rank_candidates, List.map_map]
  have h : (eraseRank ∘ fun p : ℕ × ScoredCandidate => { p.2 with rank := p.1 + 1 })
      = eraseRank ∘ Prod.snd := rfl
  rw [h, ← List.map_map, List.enum_map_snd]

theorem filter_insertionSort_score (l : List ScoredCandidate) (q : ℚ) :
    (List.insertionSort scoreGE l).filter (fun r => decide (r.overall_score = q)) =
      l.filter (fun r => decide (r.overall_score = q)) := by
  have hcp : (l.filter (fun r => decide (r.overall_score = q))).Pairwise scoreGE := by
    refine List.pairwise_of_forall_mem_list ?_
    intro a ha b hb
    have ha' : a.overall_score = q := of_decide_eq_true (List.mem_filter.mp ha).2
    have hb' : b.overall_score = q := of_decide_eq_true (List.mem_filter.mp hb).2
    exact le_of_eq (hb'.trans ha'.symm)
  have hsub : List.Sublist (l.filter (fun r => decide (r.overall_score = q)))
      (List.insertionSort scoreGE l) :=
    List.sublist_insertionSort hcp (List.filter_sublist l)
  have hsub2 := hsub.filter (fun r => decide (r.overall_score = q))
  rw [List.filter_eq_self.mpr
    (fun a ha => (List.mem_filter.mp ha).2)] at hsub2
  have hperm := (List.perm_insertionSort scoreGE l).filter
    (fun r => decide (r.overall_score = q))
  exact (hsub2.eq_of_length hperm.length_eq.symm).symm

/-- C4: ranking returns the input elements (up to the mutated `rank` field)
stably sorted by `overall_score` descending, and writes `rank` = 1-based
position; on scores `[0.75, 0.90, 0.60]` for ids `[1, 2, 3]` the order is
`[2, 1, 3]` with ranks `[1, 2, 3]`. -/
theorem rank_candidates_spec :
    (∀ l : List ScoredCandidate,
      ((rank_candidates l).map eraseRank).Perm (l.map eraseRank)) ∧
    (∀ l : List ScoredCandidate,
      (rank_candidates l).Pairwise
        (fun a b => b.overall_score ≤ a.overall_score)) ∧
    (∀ (l : List ScoredCandidate) (q : ℚ),
      ((rank_candidates l).filter (fun r => decide (r.overall_score = q))).map
          eraseRank =
        (l.filter (fun r => decide (r.overall_score = q))).map eraseRank) ∧
    (∀ l : List ScoredCandidate,
      (rank_candidates l).map (fun r => r.rank) =
        (List.range l.length).map (fun i => i + 1)) ∧
    rank_candidates [⟨1, mkRat 3 4, 0⟩, ⟨2, mkRat 9 10, 0⟩, ⟨3, mkRat 3 5, 0⟩] =
      [⟨2, mkRat 9 10, 1⟩, ⟨1, mkRat 3 4, 2⟩, ⟨3, mkRat 3 5, 3⟩] := by
  refine ⟨fun l => ?_, fun l => ?_, fun l q => ?_, fun l => ?_, by decide⟩
  · rw [rank_candidates_map_eraseRank]
    exact (List.perm_insertionSort scoreGE l).map eraseRank
  · rw [rank_candidates]
    refine List.pairwise_map.mpr ?_
    have hs2 := List.pairwise_map.mp
      (show ((List.insertionSort scoreGE l).enum.map Prod.snd).Pairwise scoreGE by
        rw [List.enum_map_snd]
        exact List.sorted_insertionSort scoreGE l)
    exact hs2
  · rw [rank_candidates, List.filter_map, List.map_map]
    have h2 : (eraseRank ∘ fun p : ℕ × ScoredCandidate => { p.2 with rank := p.1 + 1 })
        = eraseRank ∘ Prod.snd := rfl
    rw [h2, ← List.map_map]
    have h3 : (((List.insertionSort scoreGE l).enum).filter
          ((fun r => decide (r.overall_score = q)) ∘
            fun p : ℕ × ScoredCandidate => { p.2 with rank := p.1 + 1 })).map Prod.snd
        = (List.insertionSort scoreGE l).filter
            (fun r => decide (r.overall_score = q)) := by
      have h4 := List.filter_map (p := fun r : ScoredCandidate =>
        decide (r.overall_score = q)) Prod.snd (List.insertionSort scoreGE l).enum
      rw [List.enum_map_snd] at h4
      exact h4.symm
    rw [h3, filter_insertionSort_score]
  · rw [rank_candidates, List.map_map]
    have h : ((fun r : ScoredCandidate => r.rank) ∘
          fun p : ℕ × ScoredCandidate => { p.2 with rank := p.1 + 1 })
        = (fun i => i + 1) ∘ Prod.fst := rfl
    rw [h, ← List.map_map, List.enum_map_fst, List.length_insertionSort]

/-- C6 counterexample: with the caller-supplied threshold `0.0`, a candidate
whose `overall_score` is `0.2 ≥ 0.0` is nevertheless dropped, because Python's
`threshold or config.SIMILARITY_THRESHOLD` replaces the falsy value `0.0` by
the config default `0.5`. -/
theorem filter_by_threshold_counterexample :
    filter_by_threshold [⟨1, mkRat 1 5, 3⟩] (some 0) = [] ∧
      (0:ℚ) ≤ mkRat 1 5 := by
  exact ⟨by decide, by decide⟩

/-- C6 (amended): for every non-zero caller-supplied threshold `t`,
`filter_by_threshold` returns exactly the results with `overall_score ≥ t`,
in their original order and with no field (in particular `rank`) modified;
the supplied value `0.0` is silently replaced by the config default `0.5`,
as is an absent threshold; and the output is always a sublist of the input. -/
theorem filter_by_threshold_spec :
    (∀ (l : List ScoredCandidate) (t : ℚ), t ≠ 0 →
      filter_by_threshold l (some t) =
        l.filter (fun c => decide (t ≤ c.overall_score))) ∧
    (∀ l : List ScoredCandidate,
      filter_by_threshold l (some 0) =
        l.filter (fun c => decide (SIMILARITY_THRESHOLD ≤ c.overall_score))) ∧
    (∀ l : List ScoredCandidate,
      filter_by_threshold l none =
        l.filter (fun c => decide (SIMILARITY_THRESHOLD ≤ c.overall_score))) ∧
    (∀ (l : List ScoredCandidate) (t : Option ℚ),
      List.Sublist (filter_by_threshold l t) l) := by
  refine ⟨fun l t ht => ?_, fun l => ?_, fun l => rfl, fun l t => ?_⟩
  · simp only [filter_by_threshold, if_neg ht]
  · simp [filter_by_threshold]
  · rcases t with _ | v
    · exact List.filter_sublist l
    · exact List.filter_sublist l

/-- Witness for C6 at `t = 0.5` on a one-candidate list. -/
theorem filter_by_threshold_spec_witness :
    (mkRat 1 2 : ℚ) ≠ 0 ∧
      filter_by_threshold [⟨1, mkRat 3 4, 0⟩] (some (mkRat 1 2)) =
        List.filter (fun c => decide ((mkRat 1 2 : ℚ) ≤ c.overall_score))
          [⟨1, mkRat 3 4, 0⟩] :=
  ⟨by decide, filter_by_threshold_spec.1 [⟨1, mkRat 3 4, 0⟩] (mkRat 1 2) (by decide)⟩

theorem dot_self_nonneg (a : List ℝ) : 0 ≤ dotProduct a a := by
  rw [dotProduct, List.zipWith_same]
  refine List.sum_nonneg ?_
  intro x hx
  obtain ⟨y, _, rfl⟩ := List.mem_map.mp hx
  exact mul_self_nonneg y

theorem norm2_eq_zero_iff (a : List ℝ) : norm2 a = 0 ↔ dotProduct a a = 0 := by
  rw [norm2, Real.sqrt_eq_zero']
  exact ⟨fun h => le_antisymm h (dot_self_nonneg a), fun h => h.le⟩

theorem norm2_mul_self (a : List ℝ) : norm2 a * norm2 a = dotProduct a a :=
  Real.mul_self_sqrt (dot_self_nonneg a)

theorem dot_eq_sum :
    ∀ a b : List ℝ, a.length = b.length →
      dotProduct a b = ∑ i ∈ Finset.range a.length, a.getD i 0 * b.getD i 0
  | [], [], _ => by simp [dotProduct]
  | [], _ :: _, h => by simp at h
  | _ :: _, [], h => by simp at h
  | x :: xs, y :: ys, h => by
    have h' : xs.length = ys.length := by simpa using h
    simp only [dotProduct, List.zipWith_cons_cons, List.sum_cons, List.length_cons]
    rw [Finset.sum_range_succ']
    simp only [List.getD_cons_succ, List.getD_cons_zero]
    rw [← dotProduct, dot_eq_sum xs ys h']
    ring

theorem dot_sq_le (a b : List ℝ) (h : a.length = b.length) :
    dotProduct a b ^ 2 ≤ dotProduct a a * dotProduct b b := by
  have hcs := Finset.sum_mul_sq_le_sq_mul_sq (Finset.range a.length)
    (fun i => a.getD i 0) (fun i => b.getD i 0)
  rw [dot_eq_sum a b h, dot_eq_sum a a rfl, dot_eq_sum b b rfl, ← h]
  simpa [pow_two] using hcs

theorem abs_dot_le (a b : List ℝ) (h : a.length = b.length) :
    |dotProduct a b| ≤ norm2 a * norm2 b := by
  have h2 : (norm2 a * norm2 b) ^ 2 = dotProduct a a * dotProduct b b := by
    rw [mul_pow, norm2, norm2, Real.sq_sqrt (dot_self_nonneg a),
      Real.sq_sqrt (dot_self_nonneg b)]
  calc |dotProduct a b| = Real.sqrt (dotProduct a b ^ 2) :=
        (Real.sqrt_sq_eq_abs _).symm
    _ ≤ Real.sqrt (dotProduct a a * dotProduct b b) :=
        Real.sqrt_le_sqrt (dot_sq_le a b h)
    _ = norm2 a * norm2 b := by
        rw [← h2, Real.sqrt_sq (show (0:ℝ) ≤ norm2 a * norm2 b from
          mul_nonneg (Real.sqrt_nonneg _) (Real.sqrt_nonneg _))]

theorem dot_map_neg : ∀ a : List ℝ,
    dotProduct a (a.map (fun x => -x)) = -dotProduct a a
  | [] => by simp [dotProduct]
  | x :: xs => by
    simp only [dotProduct, List.map_cons, List.zipWith_cons_cons, List.sum_cons]
    rw [← dotProduct, ← dotProduct, dot_map_neg xs]
    ring

theorem dot_neg_neg : ∀ a : List ℝ,
    dotProduct (a.map (fun x => -x)) (a.map (fun x => -x)) = dotProduct a a
  | [] => by simp [dotProduct]
  | x :: xs => by
    simp only [dotProduct, List.map_cons, List.zipWith_cons_cons, List.sum_cons]
    rw [← dotProduct, ← dotProduct, dot_neg_neg xs]
    ring

theorem norm2_map_neg (a : List ℝ) : norm2 (a.map (fun x => -x)) = norm2 a := by
  rw [norm2, norm2, dot_neg_neg]

/-- C5: for equal-length vectors the semantic-similarity sub-score is
`(cosine + 1) / 2` and lies in `[0, 1]`; a zero-magnitude operand gives
exactly `0.0`; identical non-zero vectors give `1.0` and opposite non-zero
vectors give `0.0`. -/
theorem semantic_similarity_spec :
    ∀ a b : List ℝ, a.length = b.length →
      (0 ≤ calculate_semantic_similarity a b ∧
        calculate_semantic_similarity a b ≤ 1) ∧
      (norm2 a ≠ 0 → norm2 b ≠ 0 →
        calculate_semantic_similarity a b = (cosineSimilarity a b + 1) / 2) ∧
      (norm2 a = 0 ∨ norm2 b = 0 → calculate_semantic_similarity a b = 0) ∧
      (b = a → norm2 a ≠ 0 → calculate_semantic_similarity a b = 1) ∧
      (b = a.map (fun x => -x) → norm2 a ≠ 0 →
        calculate_semantic_similarity a b = 0) := by
  intro a b h
  have hbounds : 0 ≤ calculate_semantic_similarity a b ∧
      calculate_semantic_similarity a b ≤ 1 := by
    by_cases h0 : norm2 a = 0 ∨ norm2 b = 0
    · rw [calculate_semantic_similarity, if_pos h0]
      norm_num
    · rw [calculate_semantic_similarity, if_neg h0]
      push_neg at h0
      have hpos : 0 < norm2 a * norm2 b := by
        have ha := (Real.sqrt_nonneg (dotProduct a a)).lt_of_ne
          (fun hc => h0.1 hc.symm)
        have hb := (Real.sqrt_nonneg (dotProduct b b)).lt_of_ne
          (fun hc => h0.2 hc.symm)
        exact mul_pos ha hb
      have habs : |dotProduct a b / (norm2 a * norm2 b)| ≤ 1 := by
        rw [abs_div, abs_of_pos hpos]
        exact (div_le_one hpos).mpr (abs_dot_le a b h)
      obtain ⟨hlo, hhi⟩ := abs_le.mp habs
      constructor <;> linarith
  refine ⟨hbounds, fun ha hb => ?_, fun h0 => ?_, fun hba ha => ?_, fun hba ha => ?_⟩
  · rw [calculate_semantic_similarity,
      if_neg (by push_neg; exact ⟨ha, hb⟩), cosineSimilarity]
  · rw [calculate_semantic_similarity, if_pos h0]
  · rw [hba]
    have hd : dotProduct a a ≠ 0 := fun hc => ha ((norm2_eq_zero_iff a).mpr hc)
    rw [calculate_semantic_similarity, if_neg (by push_neg; exact ⟨ha, ha⟩),
      norm2_mul_self, div_self hd]
    norm_num
  · rw [hba]
    have hd : dotProduct a a ≠ 0 := fun hc => ha ((norm2_eq_zero_iff a).mpr hc)
    rw [calculate_semantic_similarity,
      if_neg (by rw [norm2_map_neg]; push_neg; exact ⟨ha, ha⟩),
      norm2_map_neg, norm2_mul_self, dot_map_neg, neg_div, div_self hd]
    norm_num

/-- Witness for C5 at `a = [1]`, `b = [1]`. -/
theorem semantic_similarity_spec_witness :
    ([(1:ℝ)].length = [(1:ℝ)].length) ∧
      (0 ≤ calculate_semantic_similarity [(1:ℝ)] [(1:ℝ)] ∧
        calculate_semantic_similarity [(1:ℝ)] [(1:ℝ)] ≤ 1) :=
  ⟨rfl, (semantic_similarity_spec [(1:ℝ)] [(1:ℝ)] rfl).1⟩

/-- C8: on equal-length embedding vectors, `compute_similarity` returns a
value exactly for the method names `cosine`, `dot`, `euclidean`, and raises
`ValueError: Unknown similarity method: ...` for every other method name. -/
theorem compute_similarity_ok_iff :
    ∀ (a b : List ℝ) (method : String), a.length = b.length →
      ((∃ v, compute_similarity a b method = Except.ok v) ↔
        (method = "cosine" ∨ method = "dot" ∨ method = "euclidean")) ∧
      (¬(method = "cosine" ∨ method = "dot" ∨ method = "euclidean") →
        compute_similarity a b method =
          Except.error ("Unknown similarity method: " ++ method)) := by
  intro a b method h
  by_cases h1 : method = "cosine"
  · subst h1
    have hex : ∃ v, compute_similarity a b "cosine" = Except.ok v := by
      rw [compute_similarity, if_pos rfl, if_pos h]
      by_cases h0 : norm2 a = 0 ∨ norm2 b = 0
      · rw [if_pos h0]
        exact ⟨0, rfl⟩
      · rw [if_neg h0]
        exact ⟨_, rfl⟩
    exact ⟨iff_of_true hex (Or.inl rfl), fun hc => absurd (Or.inl rfl) hc⟩
  · by_cases h2 : method = "dot"
    · subst h2
      have hex : ∃ v, compute_similarity a b "dot" = Except.ok v := by
        rw [compute_similarity, if_neg h1, if_pos rfl, if_pos h]
        exact ⟨_, rfl⟩
      exact ⟨iff_of_true hex (Or.inr (Or.inl rfl)),
        fun hc => absurd (Or.inr (Or.inl rfl)) hc⟩
    · by_cases h3 : method = "euclidean"
      · subst h3
        have hex : ∃ v, compute_similarity a b "euclidean" = Except.ok v := by
          rw [compute_similarity, if_neg h1, if_neg h2, if_pos rfl, if_pos h]
          exact ⟨_, rfl⟩
        exact ⟨iff_of_true hex (Or.inr (Or.inr rfl)),
          fun hc => absurd (Or.inr (Or.inr rfl)) hc⟩
      · have hne : ¬(method = "cosine" ∨ method = "dot" ∨
            method = "euclidean") := by
          tauto
        have herr : compute_similarity a b method =
            Except.error ("Unknown similarity method: " ++ method) := by
          rw [compute_similarity, if_neg h1, if_neg h2, if_neg h3]
        refine ⟨iff_of_false ?_ hne, fun _ => herr⟩
        rintro ⟨v, hv⟩
        rw [herr] at hv
        exact Except.noConfusion hv

/-- Witness for C8 at `a = [1]`, `b = [2]`, `method = "dot"`. -/
theorem compute_similarity_ok_iff_witness :
    ([(1:ℝ)].length = [(2:ℝ)].length) ∧
      ((∃ v, compute_similarity [(1:ℝ)] [(2:ℝ)] "dot" = Except.ok v) ↔
        ("dot" = "cosine" ∨ "dot" = "dot" ∨ "dot" = "euclidean")) :=
  ⟨rfl, (compute_similarity_ok_iff [(1:ℝ)] [(2:ℝ)] "dot" rfl).1⟩

theorem char_toNat_ofNat (n : ℕ) (h : n < 55296) : (Char.ofNat n).toNat = n := by
  have hv : n.isValidChar := Or.inl h
  simp only [Char.ofNat, dif_pos hv]
  rfl

theorem toLower_toLower (c : Char) : c.toLower.toLower = c.toLower := by
  have hdef : ∀ d : Char,
      d.toLower = if d.toNat ≥ 65 ∧ d.toNat ≤ 90 then Char.ofNat (d.toNat + 32)
        else d := fun _ => rfl
  by_cases h : c.toNat ≥ 65 ∧ c.toNat ≤ 90
  · rw [hdef c, if_pos h, hdef, char_toNat_ofNat (c.toNat + 32) (by omega),
      if_neg (by omega)]
  · rw [hdef c, if_neg h, hdef c, if_neg h]

theorem map_eq_self_of_mem {f : Char → Char} {l : List Char}
    (h : ∀ c ∈ l, f c = c) : l.map f = l :=
  (List.map_congr_left h).trans (List.map_id l)

theorem dropWhile_dropWhile {α : Type} (p : α → Bool) (l : List α) :
    (l.dropWhile p).dropWhile p = l.dropWhile p := by
  induction l with
  | nil => rfl
  | cons a t ih =>
    rw [List.dropWhile_cons]
    by_cases h : p a
    · rw [if_pos h]
      exact ih
    · rw [if_neg h, List.dropWhile_cons, if_neg h]

theorem dropWhile_eq_self_of_head {α : Type} {p : α → Bool} {l : List α}
    (h : ∀ hne : l ≠ [], p (l.head hne) = false) : l.dropWhile p = l := by
  cases l with
  | nil => rfl
  | cons a t =>
    rw [List.dropWhile_cons, if_neg (by simpa using h (by simp))]

theorem stripChars_prefix (l : List Char) :
    List.IsPrefix (stripChars l) (l.dropWhile Char.isWhitespace) := by
  have hsuf : List.IsSuffix
      (((l.dropWhile Char.isWhitespace).reverse).dropWhile Char.isWhitespace)
      ((l.dropWhile Char.isWhitespace).reverse) := List.dropWhile_suffix _
  have h2 := List.reverse_prefix.mpr hsuf
  rwa [List.reverse_reverse] at h2

theorem stripChars_idem (l : List Char) :
    stripChars (stripChars l) = stripChars l := by
  have hpre := stripChars_prefix l
  have hL : (stripChars l).dropWhile Char.isWhitespace = stripChars l := by
    refine dropWhile_eq_self_of_head ?_
    intro hne
    rw [hpre.head hne]
    exact List.head_dropWhile_not Char.isWhitespace l (hpre.ne_nil hne)
  have hunfold : stripChars (stripChars l) =
      ((((stripChars l).dropWhile Char.isWhitespace).reverse).dropWhile
        Char.isWhitespace).reverse := rfl
  rw [hunfold, hL]
  have h2 : (stripChars l).reverse =
      ((l.dropWhile Char.isWhitespace).reverse).dropWhile Char.isWhitespace := by
    show (((((l.dropWhile Char.isWhitespace).reverse).dropWhile
      Char.isWhitespace).reverse).reverse) = _
    rw [List.reverse_reverse]
  rw [h2, dropWhile_dropWhile]
  rfl

theorem mem_of_mem_stripChars {c : Char} {l : List Char}
    (h : c ∈ stripChars l) : c ∈ l := by
  have h1 : c ∈ ((l.dropWhile Char.isWhitespace).reverse).dropWhile
      Char.isWhitespace := List.mem_reverse.mp h
  have h2 : c ∈ (l.dropWhile Char.isWhitespace).reverse :=
    (List.dropWhile_sublist _).subset h1
  exact (List.dropWhile_sublist _).subset (List.mem_reverse.mp h2)

theorem lower_fix_of_mem_cleanSkill {s : List Char} :
    ∀ c ∈ cleanSkill s, c.toLower = c := by
  intro c hc
  have h1 : c ∈ stripChars (lowerChars s) := (List.mem_filter.mp hc).1
  have h2 : c ∈ lowerChars s := mem_of_mem_stripChars h1
  obtain ⟨y, -, rfl⟩ := List.mem_map.mp h2
  exact toLower_toLower y

theorem allowed_of_mem_cleanSkill {s : List Char} :
    ∀ c ∈ cleanSkill s, isSkillChar c = true :=
  fun _ hc => (List.mem_filter.mp hc).2

theorem skill_mappings_values_fix :
    ∀ p ∈ skill_mappings, lowerChars p.2 = p.2 ∧ stripChars p.2 = p.2 ∧
      p.2.filter isSkillChar = p.2 ∧ aliasGet p.2 = p.2 := by decide

theorem mem_of_lookup_eq_some {k b : List Char}
    (h : skill_mappings.lookup k = some b) : (k, b) ∈ skill_mappings := by
  obtain ⟨l₁, l₂, heq, -⟩ := List.lookup_eq_some_iff.mp h
  rw [heq]
  exact List.mem_append_right _ (List.mem_cons_self _ _)

theorem normalize_skill_output_fix (s : List Char) :
    lowerChars (normalize_skill s) = normalize_skill s ∧
      (normalize_skill s).filter isSkillChar = normalize_skill s := by
  rw [normalize_skill, aliasGet]
  cases h : skill_mappings.lookup (cleanSkill s) with
  | none =>
    rw [Option.getD_none]
    exact ⟨map_eq_self_of_mem lower_fix_of_mem_cleanSkill,
      List.filter_eq_self.mpr allowed_of_mem_cleanSkill⟩
  | some v =>
    rw [Option.getD_some]
    have hv := skill_mappings_values_fix _ (mem_of_lookup_eq_some h)
    exact ⟨hv.1, hv.2.2.1⟩

theorem cleanSkill_normalize (s : List Char) :
    cleanSkill (normalize_skill s) = stripChars (normalize_skill s) := by
  obtain ⟨hlow, hfil⟩ := normalize_skill_output_fix s
  rw [cleanSkill, hlow]
  refine List.filter_eq_self.mpr ?_
  intro c hc
  exact List.filter_eq_self.mp hfil c (mem_of_mem_stripChars hc)

theorem normalize_skill_twice (s : List Char) :
    normalize_skill (normalize_skill s) =
      aliasGet (stripChars (normalize_skill s)) := by
  have h : normalize_skill (normalize_skill s) =
      aliasGet (cleanSkill (normalize_skill s)) := rfl
  rw [h, cleanSkill_normalize]

theorem aliasGet_normalize_fix (s : List Char) :
    aliasGet (normalize_skill s) = normalize_skill s := by
  cases h : skill_mappings.lookup (cleanSkill s) with
  | none =>
    have hn : normalize_skill s = cleanSkill s := by
      rw [normalize_skill, aliasGet, h, Option.getD_none]
    rw [hn, aliasGet, h, Option.getD_none]
  | some v =>
    have hn : normalize_skill s = v := by
      rw [normalize_skill, aliasGet, h, Option.getD_some]
    rw [hn]
    exact (skill_mappings_values_fix _ (mem_of_lookup_eq_some h)).2.2.2

/-- C7 counterexample: normalization is not idempotent.  On the input
`"! python"` the removal of `'!'` exposes a leading space, so one application
yields `" python"` while a second application yields `"python"`. -/
theorem normalize_skill_counterexample :
    normalize_skill "! python".data = " python".data ∧
      normalize_skill (normalize_skill "! python".data) = "python".data ∧
      normalize_skill (normalize_skill "! python".data) ≠
        normalize_skill "! python".data := by
  exact ⟨by decide, by decide, by decide⟩

/-- C7 (amended): the normalizer lower-cases, trims, strips characters
outside the kept class and applies the alias map, passing unresolved inputs
through; but it is idempotent only at inputs whose normal form is already
trimmed — character stripping can expose new boundary whitespace, so in
general only `normalize ∘ normalize` is idempotent
(`normalize³ = normalize²`). -/
theorem normalize_skill_spec :
    (∀ s : List Char, stripChars (normalize_skill s) = normalize_skill s →
      normalize_skill (normalize_skill s) = normalize_skill s) ∧
    (∀ s : List Char,
      normalize_skill (normalize_skill (normalize_skill s)) =
        normalize_skill (normalize_skill s)) := by
  constructor
  · intro s hstrip
    rw [normalize_skill_twice, hstrip, aliasGet_normalize_fix]
  · intro s
    rw [normalize_skill_twice (normalize_skill s), normalize_skill_twice s]
    cases h : skill_mappings.lookup (stripChars (normalize_skill s)) with
    | none =>
      have hw : aliasGet (stripChars (normalize_skill s)) =
          stripChars (normalize_skill s) := by
        rw [aliasGet, h, Option.getD_none]
      rw [hw, stripChars_idem, hw]
    | some v =>
      have hw : aliasGet (stripChars (normalize_skill s)) = v := by
        rw [aliasGet, h, Option.getD_some]
      rw [hw]
      have hv := skill_mappings_values_fix _ (mem_of_lookup_eq_some h)
      rw [hv.2.1]
      exact hv.2.2.2

/-- Witness for C7 at `s = "python"`, whose normal form is trimmed. -/
theorem normalize_skill_spec_witness :
    stripChars (normalize_skill "python".data) = normalize_skill "python".data ∧
      normalize_skill (normalize_skill "python".data) =
        normalize_skill "python".data :=
  ⟨by decide, normalize_skill_spec.1 "python".data (by decide)⟩

/-- C9 counterexample: with the custom entry `" "` (whitespace only) the
constructed vocabulary contains the empty string, so not every member is
non-empty. -/
theorem vocabulary_counterexample :
    ¬ (∀ w ∈ buildSkillKeywords [" "], w ≠ []) := by decide

/-- C9 (amended): every member of the constructed vocabulary is lower-case
and has no leading or trailing whitespace; members are non-empty provided
every custom entry still has a character after lower-casing and stripping
(whitespace-only custom entries produce the empty string as a member). -/
theorem vocabulary_spec :
    ∀ (custom : List String) (w : List Char), w ∈ buildSkillKeywords custom →
      lowerChars w = w ∧ stripChars w = w ∧
        ((∀ s ∈ custom, stripChars (lowerChars s.data) ≠ []) → w ≠ []) := by
  have hdef : ∀ s ∈ SKILL_KEYWORDS, stripChars (lowerChars s.data) ≠ [] := by
    decide
  intro custom w hw
  rw [buildSkillKeywords, List.mem_toFinset] at hw
  obtain ⟨s, hs, rfl⟩ := List.mem_map.mp hw
  refine ⟨?_, stripChars_idem _, ?_⟩
  · refine map_eq_self_of_mem ?_
    intro c hc
    have h2 : c ∈ lowerChars s.data := mem_of_mem_stripChars hc
    obtain ⟨y, -, rfl⟩ := List.mem_map.mp h2
    exact toLower_toLower y
  · intro hcustom
    rcases List.mem_append.mp hs with h | h
    · exact hdef s h
    · exact hcustom s h

/-- Witness for C9 with the custom entry `"Django "`. -/
theorem vocabulary_spec_witness :
    ("django".data ∈ buildSkillKeywords ["Django "]) ∧
      (lowerChars "django".data = "django".data ∧
        stripChars "django".data = "django".data ∧
        ((∀ s ∈ ["Django "], stripChars (lowerChars s.data) ≠ []) →
          "django".data ≠ [])) :=
  ⟨by decide, vocabulary_spec ["Django "] "django".data (by decide)⟩

theorem occursAt_length {t pat : List Char} {i : ℕ} (hne : pat ≠ [])
    (h : occursAt t pat i = true) : i + pat.length ≤ t.length := by
  have hpos : 0 < pat.length := List.length_pos.mpr hne
  have he : (t.drop i).take pat.length = pat := of_decide_eq_true h
  have hlen := congrArg List.length he
  rw [List.length_take, List.length_drop, Nat.min_def] at hlen
  split at hlen <;> omega

theorem occursAt_getElem {t pat : List Char} {i j : ℕ}
    (h : occursAt t pat i = true) (hj : j < pat.length) :
    t[i + j]? = pat[j]? := by
  have he : (t.drop i).take pat.length = pat := of_decide_eq_true h
  conv_rhs => rw [← he]
  rw [List.getElem?_take_of_lt hj, List.getElem?_drop]

theorem match_end_word {t pat : List Char} {i : ℕ} {c : Char}
    (hlast : pat.getLast? = some c) (hnw : isWordChar c = false)
    (hm : matchAt t pat i = true) :
    i + pat.length < t.length ∧ wordAt t (i + pat.length) = true := by
  have hocc : occursAt t pat i = true := by
    have := (Bool.and_eq_true _ _).mp hm
    exact ((Bool.and_eq_true _ _).mp this.1).1
  have hb2 : boundaryAt t (i + pat.length) = true :=
    ((Bool.and_eq_true _ _).mp hm).2
  have hne : pat ≠ [] := by
    intro hp
    rw [hp] at hlast
    exact Option.noConfusion hlast
  have hlen : 1 ≤ pat.length := List.length_pos.mpr hne
  have hle := occursAt_length hne hocc
  have hc : t[i + (pat.length - 1)]? = some c := by
    rw [occursAt_getElem hocc (by omega), ← List.getLast?_eq_getElem?, hlast]
  have hw1 : wordAt t (i + pat.length - 1) = false := by
    rw [wordAt]
    have hidx : i + pat.length - 1 = i + (pat.length - 1) := by omega
    rw [hidx, hc]
    exact hnw
  rw [boundaryAt] at hb2
  have hne0 : i + pat.length ≠ 0 := by omega
  rw [decide_eq_true hne0, Bool.true_and, hw1] at hb2
  have hw2 : wordAt t (i + pat.length) = true := by
    cases hcase : wordAt t (i + pat.length) with
    | true => rfl
    | false =>
      rw [hcase] at hb2
      exact Bool.noConfusion hb2
  refine ⟨?_, hw2⟩
  by_contra hge
  have hnone : t[i + pat.length]? = none := List.getElem?_eq_none (by omega)
  rw [wordAt, hnone] at hw2
  exact Bool.noConfusion hw2

/-- C10 counterexample: the text `"c++x"` contains the vocabulary entry
`"c++"` verbatim, and the keyword scan *does* report it — the trailing `\b`
matches between `'+'` and the word character `'x'` — so the entry is not
"never" reported. -/
theorem keyword_scan_counterexample :
    occursAt "c++x".data "c++".data 0 = true ∧ isWordChar '+' = false ∧
      ("c++" ∈ SKILL_KEYWORDS) ∧
      reportsSkill "c++x".data "c++".data = true := by
  exact ⟨by decide, by decide, by decide, by decide⟩

/-- C10 (amended): a vocabulary entry whose final character is not a word
character (such as `c++` or `c#`) is reported by the keyword scan only where
an occurrence is immediately followed by a word character; in particular it
is never reported when each occurrence is followed by a non-word character
or by the end of the text (e.g. `"experienced in c++, java"`), but —
contrary to the original claim's "never" — it *is* reported when an
occurrence is directly followed by a word character (e.g. `"c++x"`). -/
theorem keyword_scan_nonword_spec :
    (∀ (t pat : List Char) (c : Char), pat.getLast? = some c →
      isWordChar c = false → keywordHit t pat = true →
      ∃ i, occursAt t pat i = true ∧ i + pat.length < t.length ∧
        wordAt t (i + pat.length) = true) ∧
    reportsSkill "experienced in c++, java".data "c++".data = false ∧
    reportsSkill "i know c#".data "c#".data = false := by
  refine ⟨?_, by decide, by decide⟩
  intro t pat c hlast hnw hhit
  obtain ⟨i, -, hm⟩ := List.any_eq_true.mp hhit
  have hocc : occursAt t pat i = true := by
    have := (Bool.and_eq_true _ _).mp hm
    exact ((Bool.and_eq_true _ _).mp this.1).1
  obtain ⟨h1, h2⟩ := match_end_word hlast hnw hm
  exact ⟨i, hocc, h1, h2⟩

/-- Witness for C10 on the text `"c++x"`. -/
theorem keyword_scan_nonword_spec_witness :
    ("c++".data.getLast? = some '+') ∧ (isWordChar '+' = false) ∧
      (keywordHit "c++x".data "c++".data = true) ∧
      (∃ i, occursAt "c++x".data "c++".data i = true ∧
        i + "c++".data.length < "c++x".data.length ∧
        wordAt "c++x".data (i + "c++".data.length) = true) :=
  ⟨by decide, by decide, by decide,
    keyword_scan_nonword_spec.1 "c++x".data "c++".data '+'
      (by decide) (by decide) (by decide)⟩

/-- Witness for C3 at `y = 3`, `r = 5`. -/
theorem experience_score_spec_witness :
    (0:ℚ) < 5 ∧ (0:ℚ) ≤ 3 ∧ (3:ℚ) < 5 ∧
    calculate_experience_score 3 (some 5) 20 = 3 / 5 := by
  refine ⟨by norm_num, by norm_num, by norm_num, ?_⟩
  exact (experience_score_spec.1 3 5 (by norm_num) (by norm_num)).1 (by norm_num)

end Screener
